import Mathlib

/-!
Shallow embedding of the line_adjustment crate (src/lib.rs).

Strings are modelled as lists of Unicode codepoints (List Char): every piece
of width arithmetic in the source operates on char counts, and the byte
arithmetic inside split_manually amounts to taking whole codepoints, so this
is the faithful level of abstraction.  Rust panics (a failed expect, or
checked arithmetic in debug builds) are modelled by Except.error carrying the
panic message; a normal return is Except.ok.  The u32 -> usize cast of
line_width is lossless, so line_width is a plain Nat.
-/

namespace LineAdjustment

/-- Unicode White_Space property, as consulted by char::is_whitespace and
hence by str::split_whitespace in the source. -/
def charIsWhitespace (c : Char) : Bool :=
  c.toNat == 0x09 || c.toNat == 0x0A || c.toNat == 0x0B || c.toNat == 0x0C ||
  c.toNat == 0x0D || c.toNat == 0x20 || c.toNat == 0x85 || c.toNat == 0xA0 ||
  c.toNat == 0x1680 ||
  (decide (0x2000 ≤ c.toNat) && decide (c.toNat ≤ 0x200A)) ||
  c.toNat == 0x2028 || c.toNat == 0x2029 || c.toNat == 0x202F ||
  c.toNat == 0x205F || c.toNat == 0x3000

/-- Tokenizer: input.split_whitespace() from the source, i.e. the maximal
runs of non-whitespace codepoints, in order, with all whitespace discarded.
The accumulator holds the current run, reversed. -/
def splitWSGo : List Char → List Char → List (List Char)
  | [], acc => if acc.isEmpty then [] else [acc.reverse]
  | c :: cs, acc =>
    if charIsWhitespace c then
      if acc.isEmpty then splitWSGo cs [] else acc.reverse :: splitWSGo cs []
    else splitWSGo cs (c :: acc)

/-- Tokenization of the whole input, as the source's input.split_whitespace(). -/
def splitWhitespace (l : List Char) : List (List Char) := splitWSGo l []

/-- Checked natural subtraction: Rust usize subtraction panics on underflow
in debug builds. -/
def checkedSub (a b : Nat) : Except String Nat :=
  if b ≤ a then .ok (a - b) else .error "attempt to subtract with overflow"

/-- Checked remainder: Rust % panics on a zero divisor. -/
def checkedMod (a b : Nat) : Except String Nat :=
  if b = 0 then .error "attempt to calculate the remainder with a divisor of zero"
  else .ok (a % b)

/-- Checked division: Rust / panics on a zero divisor. -/
def checkedDiv (a b : Nat) : Except String Nat :=
  if b = 0 then .error "attempt to divide by zero" else .ok (a / b)

/-- GapInfo struct from the source. -/
structure GapInfo where
  body_gaps_size : Nat
  tail_gap_size : Nat
deriving DecidableEq, Repr

/-- Gap distributor, translated from fn gaps in the source. -/
def gaps (n_tokens total_len line_width : Nat) : Except String GapInfo :=
  if n_tokens = 0 then .ok ⟨0, 0⟩
  else if n_tokens = 1 then
    match checkedSub line_width total_len with
    | .error e => .error e
    | .ok t => .ok ⟨0, t⟩
  else
    match checkedSub line_width total_len with
    | .error e => .error e
    | .ok free_space =>
      match checkedMod free_space (n_tokens - 1) with
      | .error e => .error e
      | .ok remainder =>
        match checkedSub free_space remainder with
        | .error e => .error e
        | .ok diff =>
          match checkedDiv diff
              (if n_tokens - 1 > 1 ∧ remainder > 0 then n_tokens - 1 - 1
               else n_tokens - 1) with
          | .error e => .error e
          | .ok max_gap =>
            .ok ⟨max_gap, if remainder > 0 then remainder else max_gap⟩

/-- Greedy fitter loop, translated from fn fit_strs: chk is the running
chk_len (accepted chars plus one separator per accepted word); returns the
accepted batch, its total_len, and the unconsumed rest of the token stream. -/
def fitGo (w : Nat) : List (List Char) → Nat → List (List Char) × Nat × List (List Char)
  | [], _ => ([], 0, [])
  | s :: rest, chk =>
    if chk + s.length ≤ w then
      let r := fitGo w rest (chk + s.length + 1)
      (s :: r.1, s.length + r.2.1, r.2.2)
    else ([], 0, s :: rest)

/-- fn fit_strs from the source: starts with chk_len = 0 and total_len = 0. -/
def fit_strs (tokens : List (List Char)) (max_line_width : Nat) :
    List (List Char) × Nat × List (List Char) :=
  fitGo max_line_width tokens 0

/-- Rendering of one fitted batch into a line, translated from the
for-loop over fit_result.list in fn transform: after each token, body
spaces when next_idx < n_gaps, tail spaces when next_idx == n_gaps or the
batch has a single token, nothing otherwise. -/
def renderLine (batch : List (List Char)) (info : GapInfo) : List Char :=
  (batch.enum.map (fun p =>
    p.2 ++
      (if p.1 + 1 < batch.length - 1 then List.replicate info.body_gaps_size ' '
       else if p.1 + 1 = batch.length - 1 ∨ batch.length = 1 then
         List.replicate info.tail_gap_size ' '
       else []))).flatten

/-- Loop of fn split_manually: each pass takes min(remaining, line_width)
codepoints (available_chars), pads a short final chunk with spaces, and
separates chunks with a newline.  When available_chars = 0 (line_width = 0
on a nonempty tail) the source computes available_chars - 1 on a usize,
which panics in debug builds. -/
def splitGo (w : Nat) : List Char → Bool → Except String (List Char)
  | [], _ => .ok []
  | c :: cs, need_newline =>
    if h : min (c :: cs).length w = 0 then
      .error "attempt to subtract with overflow"
    else
      match splitGo w ((c :: cs).drop (min (c :: cs).length w)) true with
      | .error e => .error e
      | .ok r =>
        .ok ((if need_newline then ['\n'] else []) ++
          (c :: cs).take (min (c :: cs).length w) ++
          (if min (c :: cs).length w < w then
            List.replicate (w - min (c :: cs).length w) ' '
           else []) ++ r)
termination_by l _ => l.length
decreasing_by
  simp only [List.length_drop]
  omega

/-- fn split_manually from the source: the loop starts with elapsed = 0 and
need_newline = false. -/
def split_manually (unfitted_str : List Char) (line_width : Nat) :
    Except String (List Char) :=
  splitGo line_width unfitted_str false

/-- Driving loop of fn transform: while a token can be peeked, fit a batch;
a nonempty batch is justified via gaps and rendered, an empty batch sends
the peeked token to split_manually and the stream advances past it.  A
newline precedes every emitted piece except the first. -/
def transformGo (w : Nat) : List (List Char) → Bool → Except String (List Char)
  | [], _ => .ok []
  | t :: rest, need_newline =>
    if h : (fit_strs (t :: rest) w).1.length ≠ 0 then
      match gaps (fit_strs (t :: rest) w).1.length (fit_strs (t :: rest) w).2.1 w with
      | .error e => .error e
      | .ok info =>
        match transformGo w (fit_strs (t :: rest) w).2.2 true with
        | .error e => .error e
        | .ok r =>
          .ok ((if need_newline then ['\n'] else []) ++
            renderLine (fit_strs (t :: rest) w).1 info ++ r)
    else
      match split_manually t w with
      | .error e => .error e
      | .ok piece =>
        match transformGo w rest true with
        | .error e => .error e
        | .ok r => .ok ((if need_newline then ['\n'] else []) ++ piece ++ r)
termination_by toks _ => toks.length
decreasing_by
  · have key : ∀ (toks : List (List Char)) (chk : Nat),
        (fitGo w toks chk).2.2.length + (fitGo w toks chk).1.length = toks.length := by
      intro toks
      induction toks with
      | nil => intro chk; simp [fitGo]
      | cons s rest ih =>
        intro chk
        by_cases hc : chk + s.length ≤ w
        · have := ih (chk + s.length + 1)
          simp only [fitGo, if_pos hc, List.length_cons]
          omega
        · simp [fitGo, hc]
    have h2 := key (t :: rest) 0
    simp only [fit_strs] at h
    simp only [fit_strs, List.length_cons] at h2 ⊢
    omega
  · simp

/-- fn transform from the source: an input with zero codepoints
short-circuits to the empty result, otherwise the driving loop runs over the
whitespace-split tokens. -/
def transform (input : List Char) (line_width : Nat) : Except String (List Char) :=
  if input.length = 0 then .ok []
  else transformGo line_width (splitWhitespace input) false

/-- Splitting a codepoint sequence on the newline character, used to state
the per-line properties of the output. -/
def splitNL : List Char → List (List Char)
  | [] => [[]]
  | c :: cs =>
    if c = '\n' then [] :: splitNL cs
    else
      match splitNL cs with
      | [] => [[c]]
      | l :: ls => (c :: l) :: ls

/-- Characters of the output that are neither an inserted space nor an
inserted newline. -/
def keepChar (c : Char) : Bool := !(c == ' ' || c == '\n')

/-- Modelled from the spec (section 4.3 rendering rule), for comparison with
renderLine: place body spaces after each token except after token n-2
(0-indexed) and after the last token, which instead get tail spaces; a
single token is followed by tail spaces. -/
def renderLineClaim (batch : List (List Char)) (info : GapInfo) : List Char :=
  (batch.enum.map (fun p =>
    p.2 ++
      (if batch.length = 1 then List.replicate info.tail_gap_size ' '
       else if p.1 = batch.length - 2 ∨ p.1 = batch.length - 1 then
         List.replicate info.tail_gap_size ' '
       else List.replicate info.body_gaps_size ' '))).flatten

/-- Amended rendering rule: body spaces after every token before token n-2,
tail spaces after token n-2, nothing after the last token; a single token is
followed by tail spaces. -/
def renderLineAmended (batch : List (List Char)) (info : GapInfo) : List Char :=
  (batch.enum.map (fun p =>
    p.2 ++
      (if batch.length = 1 then List.replicate info.tail_gap_size ' '
       else if p.1 < batch.length - 2 then List.replicate info.body_gaps_size ' '
       else if p.1 = batch.length - 2 then List.replicate info.tail_gap_size ' '
       else []))).flatten

/-! ### Character and tokenizer lemmas -/

theorem keepChar_ne_newline {c : Char} (h : keepChar c = true) : c ≠ '\n' := by
  intro hc
  subst hc
  exact absurd h (by decide)

theorem keepChar_of_not_ws {c : Char} (h : charIsWhitespace c = false) :
    keepChar c = true := by
  by_cases hs : c = ' '
  · subst hs; exact absurd h (by decide)
  · by_cases hn : c = '\n'
    · subst hn; exact absurd h (by decide)
    · simp [keepChar, beq_iff_eq, hs, hn]

theorem splitWSGo_mem : ∀ (l acc : List Char),
    (∀ c ∈ acc, charIsWhitespace c = false) →
    ∀ t ∈ splitWSGo l acc, t ≠ [] ∧ ∀ c ∈ t, charIsWhitespace c = false := by
  intro l
  induction l with
  | nil =>
    intro acc hacc t ht
    by_cases ha : acc.isEmpty
    · simp [splitWSGo, ha] at ht
    · simp only [splitWSGo, if_neg ha, List.mem_singleton] at ht
      subst ht
      refine ⟨?_, ?_⟩
      · simp only [List.isEmpty_iff] at ha
        simpa using ha
      · intro c hc
        exact hacc c (by simpa using hc)
  | cons x xs ih =>
    intro acc hacc t ht
    by_cases hx : charIsWhitespace x = true
    · simp only [splitWSGo, hx, if_true] at ht
      by_cases ha : acc.isEmpty
      · rw [if_pos ha] at ht
        exact ih [] (by simp) t ht
      · rw [if_neg ha] at ht
        rcases List.mem_cons.mp ht with h1 | h1
        · subst h1
          refine ⟨?_, ?_⟩
          · simp only [List.isEmpty_iff] at ha
            simpa using ha
          · intro c hc
            exact hacc c (by simpa using hc)
        · exact ih [] (by simp) t h1
    · have hx2 : charIsWhitespace x = false := by
        cases h : charIsWhitespace x
        · rfl
        · exact absurd h hx
      simp only [splitWSGo, hx2, Bool.false_eq_true, if_false] at ht
      refine ih (x :: acc) ?_ t ht
      intro c hc
      rcases List.mem_cons.mp hc with h1 | h1
      · subst h1; exact hx2
      · exact hacc c h1

theorem splitWhitespace_mem {l : List Char} {t : List Char}
    (ht : t ∈ splitWhitespace l) :
    t ≠ [] ∧ ∀ c ∈ t, charIsWhitespace c = false :=
  splitWSGo_mem l [] (by simp) t ht

theorem splitWSGo_all_ws : ∀ (l : List Char),
    (∀ c ∈ l, charIsWhitespace c = true) → splitWSGo l [] = [] := by
  intro l
  induction l with
  | nil => intro _; rfl
  | cons x xs ih =>
    intro hl
    have hx : charIsWhitespace x = true := hl x (List.mem_cons_self x xs)
    simp only [splitWSGo, hx, if_true, List.isEmpty_nil, if_pos]
    exact ih (fun c hc => hl c (List.mem_cons_of_mem x hc))

/-! ### splitNL lemmas -/

theorem splitNL_ne_nil : ∀ (l : List Char), splitNL l ≠ [] := by
  intro l
  induction l with
  | nil => simp [splitNL]
  | cons c cs ih =>
    by_cases hc : c = '\n'
    · simp [splitNL, hc]
    · simp only [splitNL, if_neg hc]
      cases h : splitNL cs with
      | nil => simp
      | cons a as => simp

theorem splitNL_append_no_nl : ∀ (xs l : List Char), (∀ c ∈ xs, c ≠ '\n') →
    splitNL (xs ++ l) = (xs ++ (splitNL l).headI) :: (splitNL l).tail := by
  intro xs
  induction xs with
  | nil =>
    intro l h
    cases hl : splitNL l with
    | nil => exact absurd hl (splitNL_ne_nil l)
    | cons a as => simp [hl]
  | cons x xs ih =>
    intro l h
    have hx : x ≠ '\n' := h x (List.mem_cons_self x xs)
    have ih2 := ih l (fun c hc => h c (List.mem_cons_of_mem x hc))
    simp only [List.cons_append, splitNL, if_neg hx, List.append_eq, ih2]

theorem splitNL_nl_cons (ys : List Char) : splitNL ('\n' :: ys) = [] :: splitNL ys := by
  simp [splitNL]

theorem splitNL_no_nl (xs : List Char) (h : ∀ c ∈ xs, c ≠ '\n') : splitNL xs = [xs] := by
  have h2 := splitNL_append_no_nl xs [] h
  simpa [splitNL] using h2

theorem splitNL_append_nl (xs ys : List Char) (h : ∀ c ∈ xs, c ≠ '\n') :
    splitNL (xs ++ '\n' :: ys) = xs :: splitNL ys := by
  have h2 := splitNL_append_no_nl xs ('\n' :: ys) h
  rw [splitNL_nl_cons] at h2
  simpa using h2

/-! ### Fitter lemmas -/

theorem fitGo_append : ∀ (w : Nat) (toks : List (List Char)) (chk : Nat),
    (fitGo w toks chk).1 ++ (fitGo w toks chk).2.2 = toks := by
  intro w toks
  induction toks with
  | nil => intro chk; simp [fitGo]
  | cons s rest ih =>
    intro chk
    by_cases hc : chk + s.length ≤ w
    · simp only [fitGo, if_pos hc, List.cons_append, List.cons.injEq, true_and]
      exact ih (chk + s.length + 1)
    · simp [fitGo, hc]

theorem fitGo_batch_nil_total : ∀ (w : Nat) (toks : List (List Char)) (chk : Nat),
    (fitGo w toks chk).1 = [] → (fitGo w toks chk).2.1 = 0 := by
  intro w toks chk h
  cases toks with
  | nil => simp [fitGo]
  | cons s rest =>
    by_cases hc : chk + s.length ≤ w
    · simp [fitGo, hc] at h
    · simp [fitGo, hc]

theorem fitGo_total_le : ∀ (w : Nat) (toks : List (List Char)) (chk : Nat),
    (fitGo w toks chk).1 ≠ [] →
    chk + (fitGo w toks chk).2.1 + ((fitGo w toks chk).1.length - 1) ≤ w := by
  intro w toks
  induction toks with
  | nil => intro chk h; simp [fitGo] at h
  | cons s rest ih =>
    intro chk h
    by_cases hc : chk + s.length ≤ w
    · simp only [fitGo, if_pos hc, List.length_cons] at h ⊢
      by_cases hr : (fitGo w rest (chk + s.length + 1)).1 = []
      · have h0 := fitGo_batch_nil_total w rest (chk + s.length + 1) hr
        rw [h0, hr]
        simpa using hc
      · have h1 := ih (chk + s.length + 1) hr
        have h2 : 1 ≤ (fitGo w rest (chk + s.length + 1)).1.length :=
          List.length_pos.mpr hr
        omega
    · simp [fitGo, hc] at h

/-! ### Gap distributor lemmas -/

theorem gaps_isOk (n total w : Nat) (hn : 1 ≤ n) (hpre : total + (n - 1) ≤ w) :
    ∃ info, gaps n total w = .ok info := by
  have h0 : ¬ n = 0 := by omega
  have hts : total ≤ w := by omega
  by_cases h1 : n = 1
  · subst h1
    exact ⟨⟨0, w - total⟩, by simp [gaps, checkedSub, hts]⟩
  · have hg : ¬ (n - 1 = 0) := by omega
    have hrem : (w - total) % (n - 1) ≤ w - total := Nat.mod_le _ _
    simp only [gaps, if_neg h0, if_neg h1, checkedSub, if_pos hts, checkedMod, if_neg hg,
      if_pos hrem, checkedDiv]
    by_cases hc : n - 1 > 1 ∧ (w - total) % (n - 1) > 0
    · have hd : ¬ (n - 1 - 1 = 0) := by omega
      simp [hc, hd]
    · simp [hc, hg]

/-! ### Splitter lemmas -/

theorem filter_replicate_space (k : Nat) :
    (List.replicate k ' ').filter keepChar = [] := by
  apply List.filter_eq_nil_iff.mpr
  intro a ha
  rw [List.mem_replicate] at ha
  rcases ha with ⟨_, rfl⟩
  decide

theorem splitGo_isOk (w : Nat) (hw : 1 ≤ w) : ∀ (n : Nat) (s : List Char),
    s.length ≤ n → ∀ b, ∃ r, splitGo w s b = .ok r := by
  intro n
  induction n with
  | zero =>
    intro s hs b
    have hnil : s = [] := by
      cases s
      · rfl
      · simp at hs
    subst hnil
    exact ⟨[], by simp [splitGo]⟩
  | succ n ih =>
    intro s hs b
    cases s with
    | nil => exact ⟨[], by simp [splitGo]⟩
    | cons c cs =>
      have hm : ¬ (min (c :: cs).length w = 0) := by
        simp only [List.length_cons]
        omega
      obtain ⟨r, hr⟩ := ih ((c :: cs).drop (min (c :: cs).length w))
        (by simp only [List.length_drop, List.length_cons] at hs ⊢; omega) true
      rw [splitGo, dif_neg hm, hr]
      exact ⟨_, rfl⟩

theorem splitGo_true_eq (w : Nat) (c : Char) (cs : List Char) :
    splitGo w (c :: cs) true = (splitGo w (c :: cs) false).map (fun o => '\n' :: o) := by
  by_cases hm : min (c :: cs).length w = 0
  · rw [splitGo, splitGo, dif_pos hm, dif_pos hm]
    rfl
  · rw [splitGo, splitGo, dif_neg hm, dif_neg hm]
    cases hr : splitGo w ((c :: cs).drop (min (c :: cs).length w)) true with
    | error e => rfl
    | ok r => rfl

theorem splitGo_filter (w : Nat) : ∀ (n : Nat) (s : List Char), s.length ≤ n →
    (∀ c ∈ s, keepChar c = true) → ∀ b out, splitGo w s b = .ok out →
    out.filter keepChar = s := by
  intro n
  induction n with
  | zero =>
    intro s hs hk b out hout
    have hnil : s = [] := by
      cases s
      · rfl
      · simp at hs
    subst hnil
    simp only [splitGo, Except.ok.injEq] at hout
    rw [← hout]
    rfl
  | succ n ih =>
    intro s hs hk b out hout
    cases s with
    | nil =>
      simp only [splitGo, Except.ok.injEq] at hout
      rw [← hout]
      rfl
    | cons c cs =>
      by_cases hm : min (c :: cs).length w = 0
      · rw [splitGo, dif_pos hm] at hout
        exact absurd hout (by simp)
      · rw [splitGo, dif_neg hm] at hout
        cases hr : splitGo w ((c :: cs).drop (min (c :: cs).length w)) true with
        | error e => rw [hr] at hout; exact absurd hout (by simp)
        | ok r =>
          rw [hr] at hout
          simp only [Except.ok.injEq] at hout
          rw [← hout]
          have hrec := ih ((c :: cs).drop (min (c :: cs).length w))
            (by simp only [List.length_drop, List.length_cons] at hs ⊢; omega)
            (fun d hd => hk d (List.drop_subset _ _ hd)) true r hr
          have htk : ((c :: cs).take (min (c :: cs).length w)).filter keepChar =
              (c :: cs).take (min (c :: cs).length w) :=
            List.filter_eq_self.mpr (fun d hd => hk d (List.take_subset _ _ hd))
          have hnl : (if b then (['\n'] : List Char) else []).filter keepChar = [] := by
            cases b <;> rfl
          have hpad : ((if min (c :: cs).length w < w then
              List.replicate (w - min (c :: cs).length w) ' '
            else []) : List Char).filter keepChar = [] := by
            split
            · exact filter_replicate_space _
            · rfl
          simp only [List.filter_append, hrec, htk, hnl, hpad, List.nil_append,
            List.append_nil]
          exact List.take_append_drop _ _

theorem splitGo_lines (w : Nat) (hw : 1 ≤ w) : ∀ (n : Nat) (s : List Char),
    s.length ≤ n → s ≠ [] → (∀ c ∈ s, c ≠ '\n') → ∀ out,
    splitGo w s false = .ok out →
    (splitNL out).length = (s.length + w - 1) / w ∧ ∀ l ∈ splitNL out, l.length = w := by
  intro n
  induction n with
  | zero =>
    intro s hs hne
    cases s with
    | nil => exact absurd rfl hne
    | cons c cs => simp at hs
  | succ n ih =>
    intro s hs hne hnl out hout
    obtain ⟨c, cs, rfl⟩ : ∃ c cs, s = c :: cs := by
      cases s with
      | nil => exact absurd rfl hne
      | cons c cs => exact ⟨c, cs, rfl⟩
    have hm : ¬ (min (c :: cs).length w = 0) := by
      simp only [List.length_cons]
      omega
    rw [splitGo, dif_neg hm] at hout
    by_cases hlen : (c :: cs).length ≤ w
    · have hmin : min (c :: cs).length w = (c :: cs).length := min_eq_left hlen
      rw [hmin, List.drop_length] at hout
      have hz : splitGo w [] true = Except.ok ([] : List Char) := by simp [splitGo]
      rw [hz] at hout
      simp only [List.take_length, List.append_nil, List.nil_append,
        Except.ok.injEq] at hout
      have hout2 : (c :: cs) ++ (if (c :: cs).length < w then
          List.replicate (w - (c :: cs).length) ' ' else []) = out := hout
      rw [← hout2]
      have hnonl : ∀ d ∈ (c :: cs) ++ (if (c :: cs).length < w then
          List.replicate (w - (c :: cs).length) ' ' else []), d ≠ '\n' := by
        intro d hd
        rcases List.mem_append.mp hd with h1 | h1
        · exact hnl d h1
        · split at h1
          · rw [List.mem_replicate] at h1
            rw [h1.2]
            decide
          · simp at h1
      rw [splitNL_no_nl _ hnonl]
      have hlen1 : 1 ≤ (c :: cs).length := by simp
      constructor
      · simp only [List.length_singleton]
        refine (Nat.div_eq_of_lt_le ?_ ?_).symm
        · omega
        · omega
      · intro l hl
        rw [List.mem_singleton] at hl
        subst hl
        rw [List.length_append]
        split
        · rw [List.length_replicate]
          omega
        · simp only [List.length_nil]
          omega
    · have hwle : w ≤ (c :: cs).length := le_of_not_le hlen
      have hmin : min (c :: cs).length w = w := min_eq_right hwle
      rw [hmin, if_neg (lt_irrefl w)] at hout
      have hrest_ne : (c :: cs).drop w ≠ [] := by
        rw [← List.length_pos, List.length_drop]
        omega
      obtain ⟨r0, hr0⟩ := splitGo_isOk w hw n ((c :: cs).drop w)
        (by simp only [List.length_drop, List.length_cons] at hs ⊢; omega) false
      obtain ⟨d, ds, hdds⟩ : ∃ d ds, (c :: cs).drop w = d :: ds := by
        cases hd : (c :: cs).drop w with
        | nil => exact absurd hd hrest_ne
        | cons d ds => exact ⟨d, ds, rfl⟩
      have htrue : splitGo w ((c :: cs).drop w) true = .ok ('\n' :: r0) := by
        rw [hdds] at hr0 ⊢
        rw [splitGo_true_eq, hr0]
        rfl
      rw [htrue] at hout
      simp only [List.nil_append, Except.ok.injEq] at hout
      have hout2 : (c :: cs).take w ++ '\n' :: r0 = out := by
        rw [← hout]
        simp
      rw [← hout2]
      have hih := ih ((c :: cs).drop w)
        (by simp only [List.length_drop, List.length_cons] at hs ⊢; omega) hrest_ne
        (fun d hd => hnl d (List.drop_subset _ _ hd)) r0 hr0
      rw [splitNL_append_nl _ _ (fun d hd => hnl d (List.take_subset _ _ hd))]
      constructor
      · rw [List.length_cons, hih.1]
        have hdiv := Nat.add_div_right (((c :: cs).drop w).length + w - 1) hw
        rw [List.length_drop] at hih ⊢
        have harg : (c :: cs).length - w + w - 1 + w = (c :: cs).length + w - 1 := by
          omega
        rw [← harg, Nat.add_div_right _ hw]
      · intro l hl
        rcases List.mem_cons.mp hl with h1 | h1
        · subst h1
          rw [List.length_take]
          omega
        · exact hih.2 l h1

theorem splitGo_chunk_eq (w : Nat) (hw : 1 ≤ w) : ∀ (n : Nat) (s : List Char),
    s.length ≤ n → s ≠ [] → (∀ c ∈ s, c ≠ '\n') → ∀ out,
    splitGo w s false = .ok out → ∀ i, i < (splitNL out).length →
    (splitNL out).getD i [] =
      (s.drop (i * w)).take w ++
        List.replicate (w - ((s.drop (i * w)).take w).length) ' ' := by
  intro n
  induction n with
  | zero =>
    intro s hs hne
    cases s with
    | nil => exact absurd rfl hne
    | cons c cs => simp at hs
  | succ n ih =>
    intro s hs hne hnl out hout i hi
    obtain ⟨c, cs, rfl⟩ : ∃ c cs, s = c :: cs := by
      cases s with
      | nil => exact absurd rfl hne
      | cons c cs => exact ⟨c, cs, rfl⟩
    have hm : ¬ (min (c :: cs).length w = 0) := by
      simp only [List.length_cons]
      omega
    rw [splitGo, dif_neg hm] at hout
    by_cases hlen : (c :: cs).length ≤ w
    · have hmin : min (c :: cs).length w = (c :: cs).length := min_eq_left hlen
      rw [hmin, List.drop_length] at hout
      have hz : splitGo w [] true = Except.ok ([] : List Char) := by simp [splitGo]
      rw [hz] at hout
      simp only [List.take_length, List.append_nil, List.nil_append,
        Except.ok.injEq] at hout
      have hout2 : (c :: cs) ++ (if (c :: cs).length < w then
          List.replicate (w - (c :: cs).length) ' ' else []) = out := hout
      subst hout2
      have hnonl : ∀ d ∈ (c :: cs) ++ (if (c :: cs).length < w then
          List.replicate (w - (c :: cs).length) ' ' else []), d ≠ '\n' := by
        intro d hd
        rcases List.mem_append.mp hd with h1 | h1
        · exact hnl d h1
        · split at h1
          · rw [List.mem_replicate] at h1
            rw [h1.2]
            decide
          · simp at h1
      rw [splitNL_no_nl _ hnonl] at hi ⊢
      have hi0 : i = 0 := by
        simp only [List.length_singleton] at hi
        omega
      subst hi0
      rw [List.getD_cons_zero, Nat.zero_mul, List.drop_zero,
        List.take_of_length_le hlen]
      congr 1
      split
      · rfl
      · have hz2 : w - (c :: cs).length = 0 := by omega
        rw [hz2]
        rfl
    · have hwle : w ≤ (c :: cs).length := le_of_not_le hlen
      have hmin : min (c :: cs).length w = w := min_eq_right hwle
      rw [hmin, if_neg (lt_irrefl w)] at hout
      have hrest_ne : (c :: cs).drop w ≠ [] := by
        rw [← List.length_pos, List.length_drop]
        omega
      obtain ⟨r0, hr0⟩ := splitGo_isOk w hw n ((c :: cs).drop w)
        (by simp only [List.length_drop, List.length_cons] at hs ⊢; omega) false
      obtain ⟨d, ds, hdds⟩ : ∃ d ds, (c :: cs).drop w = d :: ds := by
        cases hd : (c :: cs).drop w with
        | nil => exact absurd hd hrest_ne
        | cons d ds => exact ⟨d, ds, rfl⟩
      have htrue : splitGo w ((c :: cs).drop w) true = .ok ('\n' :: r0) := by
        rw [hdds] at hr0 ⊢
        rw [splitGo_true_eq, hr0]
        rfl
      rw [htrue] at hout
      simp only [List.nil_append, Except.ok.injEq] at hout
      have hout2 : (c :: cs).take w ++ '\n' :: r0 = out := by
        rw [← hout]
        simp
      subst hout2
      rw [splitNL_append_nl _ _ (fun e he => hnl e (List.take_subset _ _ he))] at hi ⊢
      cases i with
      | zero =>
        rw [List.getD_cons_zero, Nat.zero_mul, List.drop_zero]
        have hltk : ((c :: cs).take w).length = w := by
          rw [List.length_take]
          omega
        rw [hltk, Nat.sub_self]
        simp
      | succ j =>
        rw [List.getD_cons_succ]
        have hj : j < (splitNL r0).length := by
          simp only [List.length_cons] at hi
          omega
        have hih := ih ((c :: cs).drop w)
          (by simp only [List.length_drop, List.length_cons] at hs ⊢; omega) hrest_ne
          (fun e he => hnl e (List.drop_subset _ _ he)) r0 hr0 j hj
        rw [hih, List.drop_drop]
        have harith : w + j * w = (j + 1) * w := by ring
        rw [harith]

/-! ### Rendering lemmas -/

theorem renderLine_filter (batch : List (List Char)) (info : GapInfo)
    (h : ∀ t ∈ batch, ∀ c ∈ t, keepChar c = true) :
    (renderLine batch info).filter keepChar = batch.flatten := by
  unfold renderLine
  have key : ∀ (L : List (Nat × List Char)),
      (∀ p ∈ L, ∀ c ∈ p.2, keepChar c = true) →
      ((L.map (fun p => p.2 ++
        (if p.1 + 1 < batch.length - 1 then List.replicate info.body_gaps_size ' '
         else if p.1 + 1 = batch.length - 1 ∨ batch.length = 1 then
           List.replicate info.tail_gap_size ' '
         else []))).flatten).filter keepChar = (L.map Prod.snd).flatten := by
    intro L
    induction L with
    | nil => intro _; simp
    | cons p ps ih =>
      intro hp
      simp only [List.map_cons, List.flatten_cons, List.filter_append]
      rw [ih (fun q hq => hp q (List.mem_cons_of_mem p hq))]
      congr 1
      have h2 : (p.2).filter keepChar = p.2 :=
        List.filter_eq_self.mpr (hp p (List.mem_cons_self p ps))
      have h3 : ((if p.1 + 1 < batch.length - 1 then
            List.replicate info.body_gaps_size ' '
          else if p.1 + 1 = batch.length - 1 ∨ batch.length = 1 then
            List.replicate info.tail_gap_size ' '
          else []) : List Char).filter keepChar = [] := by
        split
        · exact filter_replicate_space _
        · split
          · exact filter_replicate_space _
          · rfl
      rw [h2, h3, List.append_nil]
  have hmem : ∀ p ∈ batch.enum, ∀ c ∈ p.2, keepChar c = true := by
    intro p hp
    obtain ⟨i, x⟩ := p
    have h2 := List.mem_enum hp
    exact h x (h2.2 ▸ List.getElem_mem _)
  rw [key batch.enum hmem, List.enum_map_snd]

/-! ### Driving-loop lemmas -/

theorem transformGo_isOk (w : Nat) (hw : 1 ≤ w) : ∀ (n : Nat) (toks : List (List Char)),
    toks.length ≤ n → ∀ b, ∃ r, transformGo w toks b = .ok r := by
  intro n
  induction n with
  | zero =>
    intro toks hl b
    have hnil : toks = [] := by
      cases toks
      · rfl
      · simp at hl
    subst hnil
    exact ⟨[], by simp [transformGo]⟩
  | succ n ih =>
    intro toks hl b
    cases toks with
    | nil => exact ⟨[], by simp [transformGo]⟩
    | cons t rest =>
      have happ : (fit_strs (t :: rest) w).1 ++ (fit_strs (t :: rest) w).2.2 = t :: rest :=
        fitGo_append w (t :: rest) 0
      have hlensum : (fit_strs (t :: rest) w).1.length + (fit_strs (t :: rest) w).2.2.length =
          (t :: rest).length := by
        rw [← List.length_append, happ]
      by_cases hfit : (fit_strs (t :: rest) w).1.length ≠ 0
      · have hne : (fit_strs (t :: rest) w).1 ≠ [] := by
          intro hh
          rw [hh] at hfit
          simp at hfit
        have htot : 0 + (fit_strs (t :: rest) w).2.1 +
            ((fit_strs (t :: rest) w).1.length - 1) ≤ w :=
          fitGo_total_le w (t :: rest) 0 hne
        obtain ⟨info, hinfo⟩ := gaps_isOk (fit_strs (t :: rest) w).1.length
          (fit_strs (t :: rest) w).2.1 w (List.length_pos.mpr hne) (by omega)
        obtain ⟨r, hr⟩ := ih (fit_strs (t :: rest) w).2.2 (by
          simp only [List.length_cons] at hl hlensum
          omega) true
        rw [transformGo, dif_pos hfit, hinfo, hr]
        exact ⟨_, rfl⟩
      · obtain ⟨piece, hp⟩ := splitGo_isOk w hw t.length t (le_refl _) false
        obtain ⟨r, hr⟩ := ih rest (by simp only [List.length_cons] at hl; omega) true
        rw [transformGo, dif_neg hfit]
        simp only [split_manually]
        rw [hp, hr]
        exact ⟨_, rfl⟩

theorem transformGo_filter (w : Nat) : ∀ (n : Nat) (toks : List (List Char)),
    toks.length ≤ n → (∀ t ∈ toks, ∀ c ∈ t, keepChar c = true) →
    ∀ b out, transformGo w toks b = .ok out →
    out.filter keepChar = toks.flatten := by
  intro n
  induction n with
  | zero =>
    intro toks hl hk b out hout
    have hnil : toks = [] := by
      cases toks
      · rfl
      · simp at hl
    subst hnil
    simp only [transformGo, Except.ok.injEq] at hout
    rw [← hout]
    rfl
  | succ n ih =>
    intro toks hl hk b out hout
    cases toks with
    | nil =>
      simp only [transformGo, Except.ok.injEq] at hout
      rw [← hout]
      rfl
    | cons t rest =>
      have happ : (fit_strs (t :: rest) w).1 ++ (fit_strs (t :: rest) w).2.2 = t :: rest :=
        fitGo_append w (t :: rest) 0
      have hlensum : (fit_strs (t :: rest) w).1.length + (fit_strs (t :: rest) w).2.2.length =
          (t :: rest).length := by
        rw [← List.length_append, happ]
      have hnl : ∀ (b : Bool), ((if b then (['\n'] : List Char) else [])).filter keepChar = [] := by
        intro b; cases b <;> rfl
      by_cases hfit : (fit_strs (t :: rest) w).1.length ≠ 0
      · rw [transformGo, dif_pos hfit] at hout
        cases hg : gaps (fit_strs (t :: rest) w).1.length (fit_strs (t :: rest) w).2.1 w with
        | error e => rw [hg] at hout; exact absurd hout (by simp)
        | ok info =>
          rw [hg] at hout
          cases ht : transformGo w (fit_strs (t :: rest) w).2.2 true with
          | error e => rw [ht] at hout; exact absurd hout (by simp)
          | ok r =>
            rw [ht] at hout
            simp only [Except.ok.injEq] at hout
            rw [← hout]
            have hkb : ∀ t' ∈ (fit_strs (t :: rest) w).1, ∀ c ∈ t', keepChar c = true := by
              intro t' ht' c hc
              refine hk t' ?_ c hc
              rw [← happ]
              exact List.mem_append_left _ ht'
            have hkr : ∀ t' ∈ (fit_strs (t :: rest) w).2.2, ∀ c ∈ t', keepChar c = true := by
              intro t' ht' c hc
              refine hk t' ?_ c hc
              rw [← happ]
              exact List.mem_append_right _ ht'
            have hrec := ih (fit_strs (t :: rest) w).2.2 (by
              simp only [List.length_cons] at hl hlensum
              omega) hkr true r ht
            simp only [List.filter_append, hrec, renderLine_filter _ _ hkb, hnl,
              List.nil_append]
            rw [← List.flatten_append, happ]
      · rw [transformGo, dif_neg hfit] at hout
        cases hp : split_manually t w with
        | error e => rw [hp] at hout; exact absurd hout (by simp)
        | ok piece =>
          rw [hp] at hout
          cases ht : transformGo w rest true with
          | error e => rw [ht] at hout; exact absurd hout (by simp)
          | ok r =>
            rw [ht] at hout
            simp only [Except.ok.injEq] at hout
            rw [← hout]
            have hpf := splitGo_filter w t.length t (le_refl _)
              (hk t (List.mem_cons_self t rest)) false piece hp
            have hrec := ih rest (by simp only [List.length_cons] at hl; omega)
              (fun t' ht' => hk t' (List.mem_cons_of_mem t ht')) true r ht
            simp only [List.filter_append, hpf, hrec, hnl, List.nil_append,
              List.flatten_cons]

/-! ### Claim theorems -/

/-- C1: the width invariant fails on the code.  For the non-empty input
"a b c d" and line_width 9, transform succeeds and emits the single line
"a b c  d", which has 8 codepoints rather than 9: the gap distributor
loses one padding character when the free space is not divisible by the
gap count and the quotient division is taken over n_gaps - 1 body gaps. -/
theorem transform_width_bug :
    transform ("a b c d".toList) 9 = .ok ("a b c  d".toList) ∧
    splitNL ("a b c  d".toList) = [("a b c  d".toList)] ∧
    ("a b c  d".toList).length ≠ 9 := by
  refine ⟨?_, rfl, by decide⟩
  simp [transform, transformGo, fit_strs, fitGo, gaps, checkedSub, checkedMod, checkedDiv,
    renderLine, splitWhitespace, splitWSGo, charIsWhitespace, List.enum, List.enumFrom]

/-- C2: for n_tokens ≥ 2 under the fitter-guaranteed precondition
line_width ≥ total_len + (n_tokens - 1), the gap distributor computes
exactly: n_gaps = n_tokens - 1, free_space = line_width - total_len,
remainder = free_space mod n_gaps; divisor is n_gaps - 1 when remainder > 0
and n_gaps > 1, else n_gaps; body_gap_size = (free_space - remainder) /
divisor; tail_gap_size = remainder when remainder > 0, else body_gap_size. -/
theorem gaps_formula (n_tokens total_len line_width : Nat) (hn : 2 ≤ n_tokens)
    (hpre : total_len + (n_tokens - 1) ≤ line_width) :
    gaps n_tokens total_len line_width = .ok
      ⟨(line_width - total_len - (line_width - total_len) % (n_tokens - 1)) /
         (if (line_width - total_len) % (n_tokens - 1) > 0 ∧ n_tokens - 1 > 1
          then n_tokens - 1 - 1 else n_tokens - 1),
       if (line_width - total_len) % (n_tokens - 1) > 0
       then (line_width - total_len) % (n_tokens - 1)
       else (line_width - total_len - (line_width - total_len) % (n_tokens - 1)) /
         (if (line_width - total_len) % (n_tokens - 1) > 0 ∧ n_tokens - 1 > 1
          then n_tokens - 1 - 1 else n_tokens - 1)⟩ := by
  have h0 : ¬ n_tokens = 0 := by omega
  have h1 : ¬ n_tokens = 1 := by omega
  have hts : total_len ≤ line_width := by omega
  have hg : ¬ (n_tokens - 1 = 0) := by omega
  have hrem : (line_width - total_len) % (n_tokens - 1) ≤ line_width - total_len :=
    Nat.mod_le _ _
  simp only [gaps, if_neg h0, if_neg h1, checkedSub, if_pos hts, checkedMod, if_neg hg,
    if_pos hrem, checkedDiv]
  by_cases hc : (line_width - total_len) % (n_tokens - 1) > 0
  · by_cases hb : n_tokens - 1 > 1
    · have hd : ¬ (n_tokens - 1 - 1 = 0) := by omega
      simp [hc, hb, hd]
    · exfalso
      have hone : n_tokens - 1 = 1 := by omega
      rw [hone, Nat.mod_one] at hc
      exact Nat.lt_irrefl 0 hc
  · simp [hc, hg]

/-- Witness for C2 at n_tokens = 4, total_len = 4, line_width = 9. -/
theorem gaps_formula_witness :
    (2 ≤ 4 ∧ 4 + (4 - 1) ≤ 9) ∧ gaps 4 4 9 = Except.ok ⟨1, 2⟩ :=
  ⟨by decide, (gaps_formula 4 4 9 (by decide) (by decide)).trans rfl⟩

/-- C3: the gap-info invariant fails on the code.  With n = 4 tokens of
total_len 4 and line_width 9 — satisfying the fitter precondition
9 ≥ 4 + 3 — gaps returns body 1 and tail 2, yet
1 * (4 - 2) + 2 + 4 = 8 ≠ 9. -/
theorem gaps_invariant_bug :
    4 + (4 - 1) ≤ 9 ∧ gaps 4 4 9 = .ok ⟨1, 2⟩ ∧
    ¬ ((1 : Nat) * (4 - 2) + 2 + 4 = 9) :=
  ⟨by decide, rfl, by decide⟩

/-- C4 counterexample: for the fitted batch ["a", "b"] with the gap info
actually computed by gaps 2 2 4 (body 2, tail 2), the source renders
"a  b" — nothing follows the last token — while the claimed rule, which
also places tail spaces after the last token, renders "a  b  ". -/
theorem renderLine_claim_counterexample :
    gaps 2 2 4 = .ok ⟨2, 2⟩ ∧
    renderLine [['a'], ['b']] ⟨2, 2⟩ = ('a' :: ' ' :: ' ' :: ['b']) ∧
    renderLineClaim [['a'], ['b']] ⟨2, 2⟩ ≠ ('a' :: ' ' :: ' ' :: ['b']) :=
  ⟨rfl, rfl, by decide⟩

/-- C4 (amended): rendering a fitted batch of n tokens with gap info
(body, tail) places body spaces after every token before token n-2
(0-indexed), tail spaces after token n-2, and nothing after the last
token; when n = 1 the single token is followed by tail spaces. -/
theorem renderLine_rule_amended (batch : List (List Char)) (info : GapInfo) :
    renderLine batch info = renderLineAmended batch info := by
  unfold renderLine renderLineAmended
  congr 1
  apply List.map_congr_left
  intro p hp
  congr 1
  by_cases h1 : batch.length = 1
  · simp [h1]
  · split_ifs <;>
      first
        | rfl
        | (exfalso; omega)
        | (exfalso
           have hb : batch.length = 0 := by omega
           rw [List.length_eq_zero] at hb
           subst hb
           simp at hp)

/-- C5: splitting a token whose codepoint count exceeds line_width ≥ 1 (a
token contains no spaces or newlines) yields ceil(L/w) newline-joined
lines, each of exactly w codepoints; concatenating the lines minus the
inserted padding reproduces the token's characters in order, so splits
happen only at codepoint boundaries; and line i is exactly the i-th
consecutive w-codepoint chunk of the token followed on the right by
space padding up to width w — padding that is empty for every chunk of
full width, hence occurs only at the end of the final, shorter chunk. -/
theorem split_manually_chunks (s : List Char) (w : Nat) (hw : 1 ≤ w)
    (hL : w < s.length) (hs : ∀ c ∈ s, keepChar c = true) :
    ∃ out, split_manually s w = .ok out ∧
      (splitNL out).length = (s.length + w - 1) / w ∧
      (∀ l ∈ splitNL out, l.length = w) ∧
      out.filter keepChar = s ∧
      ∀ i, i < (splitNL out).length →
        (splitNL out).getD i [] =
          (s.drop (i * w)).take w ++
            List.replicate (w - ((s.drop (i * w)).take w).length) ' ' := by
  obtain ⟨out, hout⟩ := splitGo_isOk w hw s.length s (le_refl _) false
  have hne : s ≠ [] := by
    intro hh
    rw [hh] at hL
    simp at hL
  have hlines := splitGo_lines w hw s.length s (le_refl _) hne
    (fun c hc => keepChar_ne_newline (hs c hc)) out hout
  have hfil := splitGo_filter w s.length s (le_refl _) hs false out hout
  have hchunk := splitGo_chunk_eq w hw s.length s (le_refl _) hne
    (fun c hc => keepChar_ne_newline (hs c hc)) out hout
  exact ⟨out, hout, hlines.1, hlines.2, hfil, hchunk⟩

/-- Witness for C5 at the token "abcde" and line_width 2. -/
theorem split_manually_chunks_witness :
    (1 ≤ 2 ∧ 2 < ("abcde".toList).length ∧ ∀ c ∈ "abcde".toList, keepChar c = true) ∧
    ∃ out, split_manually ("abcde".toList) 2 = .ok out ∧
      (splitNL out).length = (("abcde".toList).length + 2 - 1) / 2 ∧
      (∀ l ∈ splitNL out, l.length = 2) ∧
      out.filter keepChar = "abcde".toList ∧
      ∀ i, i < (splitNL out).length →
        (splitNL out).getD i [] =
          (("abcde".toList).drop (i * 2)).take 2 ++
            List.replicate (2 - ((("abcde".toList).drop (i * 2)).take 2).length) ' ' :=
  ⟨by decide, split_manually_chunks ("abcde".toList) 2 (by decide) (by decide) (by decide)⟩

/-- C6: transform of the empty input returns the empty output, with no
lines at all, for every line_width including 0. -/
theorem transform_empty (w : Nat) : transform [] w = .ok [] := rfl

/-- C7: for every input and every line_width ≥ 1, transform terminates and
returns normally — none of the modelled panics (failed expect, arithmetic
underflow, division by zero, out-of-bounds) occurs. -/
theorem transform_total (input : List Char) (w : Nat) (hw : 1 ≤ w) :
    ∃ out, transform input w = .ok out := by
  by_cases h0 : input.length = 0
  · exact ⟨[], by simp [transform, h0]⟩
  · obtain ⟨r, hr⟩ := transformGo_isOk w hw (splitWhitespace input).length
      (splitWhitespace input) (le_refl _) false
    refine ⟨r, ?_⟩
    simp only [transform, if_neg h0]
    exact hr

/-- Witness for C7 at input "hi" and line_width 1. -/
theorem transform_total_witness :
    1 ≤ 1 ∧ ∃ out, transform ('h' :: 'i' :: []) 1 = .ok out :=
  ⟨by decide, transform_total ('h' :: 'i' :: []) 1 (by decide)⟩

/-- C8 counterexample: transform does not validate line_width ≥ 1 at its
boundary.  For input "a" and line_width 0 it tokenizes, runs the fitter,
reaches split_manually, and the modelled outcome is the splitter's
arithmetic-underflow panic — propagated undefined arithmetic, not an
explicit boundary error value. -/
theorem transform_zero_width_counterexample :
    transform ['a'] 0 = .error "attempt to subtract with overflow" := by
  simp [transform, transformGo, fit_strs, fitGo, split_manually, splitGo,
    splitWhitespace, splitWSGo, charIsWhitespace]

/-- C8 (amended): transform performs no boundary validation of line_width;
whenever line_width = 0 and the input tokenizes to at least one word, the
fitter accepts nothing and split_manually panics with an arithmetic
underflow (available_chars - 1 with available_chars = 0). -/
theorem transform_zero_width (input : List Char)
    (h : splitWhitespace input ≠ []) :
    transform input 0 = .error "attempt to subtract with overflow" := by
  have h0 : ¬ (input.length = 0) := by
    rw [List.length_eq_zero]
    intro hh
    subst hh
    exact h rfl
  simp only [transform, if_neg h0]
  obtain ⟨t, rest, htr⟩ : ∃ t rest, splitWhitespace input = t :: rest := by
    cases hh : splitWhitespace input with
    | nil => exact absurd hh h
    | cons t rest => exact ⟨t, rest, rfl⟩
  have htok := splitWhitespace_mem (htr ▸ List.mem_cons_self t rest)
  obtain ⟨c, cs, hccs⟩ : ∃ c cs, t = c :: cs := by
    cases hht : t with
    | nil => exact absurd hht htok.1
    | cons c cs => exact ⟨c, cs, rfl⟩
  rw [htr]
  have hfit : (fit_strs (t :: rest) 0).1.length = 0 := by
    simp [fit_strs, fitGo, htok.1]
  have hsplit : split_manually t 0 = .error "attempt to subtract with overflow" := by
    rw [hccs]
    simp only [split_manually]
    rw [splitGo, dif_pos (by simp)]
  rw [transformGo, dif_neg (fun hh => hh hfit), hsplit]

/-- Witness for the amended C8 at input "b". -/
theorem transform_zero_width_witness :
    splitWhitespace ['b'] ≠ [] ∧
    transform ['b'] 0 = .error "attempt to subtract with overflow" :=
  ⟨by decide, transform_zero_width ['b'] (by decide)⟩

/-- C9: for every input and line_width ≥ 1, removing all space and newline
characters from a successful transform output yields exactly the
concatenation, in original order, of the input's whitespace-separated
tokens (the maximal non-whitespace runs). -/
theorem word_preservation (input : List Char) (w : Nat) (hw : 1 ≤ w)
    (out : List Char) (hout : transform input w = .ok out) :
    out.filter keepChar = (splitWhitespace input).flatten := by
  by_cases h0 : input.length = 0
  · rw [List.length_eq_zero] at h0
    subst h0
    have h1 : transform [] w = Except.ok ([] : List Char) := rfl
    rw [h1] at hout
    simp only [Except.ok.injEq] at hout
    subst hout
    rfl
  · have hout2 : transformGo w (splitWhitespace input) false = .ok out := by
      rw [← hout]
      simp only [transform, if_neg h0]
    exact transformGo_filter w (splitWhitespace input).length (splitWhitespace input)
      (le_refl _)
      (fun t ht c hc => keepChar_of_not_ws ((splitWhitespace_mem ht).2 c hc))
      false out hout2

/-- Witness for C9 at input "a b" and line_width 3. -/
theorem word_preservation_witness :
    (1 ≤ 3 ∧ transform ('a' :: ' ' :: ['b']) 3 = .ok ('a' :: ' ' :: ['b'])) ∧
    ('a' :: ' ' :: ['b']).filter keepChar =
      (splitWhitespace ('a' :: ' ' :: ['b'])).flatten := by
  have h : transform ('a' :: ' ' :: ['b']) 3 = .ok ('a' :: ' ' :: ['b']) := by
    simp [transform, transformGo, fit_strs, fitGo, gaps, checkedSub, checkedMod,
      checkedDiv, renderLine, splitWhitespace, splitWSGo, charIsWhitespace,
      List.enum, List.enumFrom]
  exact ⟨⟨by decide, h⟩, word_preservation _ 3 (by decide) _ h⟩

/-- C10: a non-empty input consisting entirely of whitespace codepoints
transforms to the empty output for every line_width, including 0: the
empty-input short-circuit does not fire, but tokenization yields no words
and the driving loop never runs. -/
theorem transform_all_ws (input : List Char) (w : Nat) (h1 : input ≠ [])
    (h2 : ∀ c ∈ input, charIsWhitespace c = true) :
    transform input w = .ok [] := by
  have h0 : ¬ (input.length = 0) := by
    rw [List.length_eq_zero]
    exact h1
  simp only [transform, if_neg h0]
  have h3 : splitWhitespace input = [] := splitWSGo_all_ws input h2
  rw [h3]
  simp [transformGo]

/-- Witness for C10 at the input " " and line_width 0. -/
theorem transform_all_ws_witness :
    ((' ' :: []) ≠ [] ∧ ∀ c ∈ (' ' :: []), charIsWhitespace c = true) ∧
    transform (' ' :: []) 0 = .ok [] :=
  ⟨by decide, transform_all_ws (' ' :: []) 0 (by decide) (by decide)⟩

end LineAdjustment
